import Mathlib

set_option maxRecDepth 8000

/-!
Shallow embedding of the deterministic financial-analytics engine of this
repository (the analytics module defining `normalizeCategory`,
`detectCategoryTrends`, `detectAnomalies`, `detectRecurringCharges`,
`calculateCashflow`, and the goal-feasibility computation of the goal
forecast route).  The repository ships two revisions of the analytics
module in one file; the embedding follows the later revision (the one with
the SNAKE_CASE category normalizer and the local-date parse helper), which
is the revision the specification describes.

Modeling conventions:
* JS numbers are modeled as rationals (`ℚ`); `Math.round` is `⌊x + 1/2⌋`
  (which is exactly JS semantics, including negatives).
* `Math.sqrt` is modeled by a computable non-negative rational square-root
  approximation `sqrtQ`; no theorem below depends on its accuracy, only on
  its non-negativity (and on its being a function of its argument).
* JS `Date` values are calendar days (the spec fixes "local calendar day"
  semantics, no time of day): a structured `(year, month 0-11, day 1-31)`
  record, with `epochDay` the day count that models `getTime()` at day
  granularity (civil-from-days algorithm), so the engine's
  `Math.round((t2-t1)/86400000)` is exactly `epochDay d2 - epochDay d1`.
* `Date.setMonth` month arithmetic is `jsAddMonths`, including JS's
  day-of-month overflow normalization (so `calculateCashflow`'s previous
  month, `setMonth(getMonth()-1)`, can land back in the target's own
  month for end-of-month targets, exactly as in JS).  The two month
  parameters of `detectCategoryTrends` are read by the source only
  through `getFullYear`/`getMonth`, so they are modeled as year/month
  pairs (`YM`); `calculateCashflow`'s month parameter is a full date.
* JS strings are `String`/`List Char`; `split`, `join` and `trim` are
  defined below on `List Char` mirroring the ECMAScript operations
  (`String.prototype.split` on a single-character separator,
  `Array.prototype.join`, `trim` with the full ECMAScript whitespace
  set).  `toUpperCase`/`toLowerCase` are modeled by the ASCII case maps,
  with which they agree exactly on ASCII characters; the one theorem
  whose truth depends on case mapping (C2's idempotence) restricts its
  claim to ASCII strings accordingly.
* JS `Map` grouping: a group's members are recovered by filtering the
  input list with the group key; the set of keys is the deduplicated key
  list (JS `Map` iteration order is insertion order; output order of every
  detector is explicitly unspecified by the spec, so the embedding's
  dedup order is immaterial).  A JS group's `amount` field is set when the
  group is created, i.e. by the first matching transaction in list order,
  which the embedding models with `head?`.
-/

namespace Panw

/-! ### JS numeric primitives over ℚ -/

/-- JS `Math.round`: round half toward +∞, i.e. `⌊x + 1/2⌋`. -/
def jsRound (q : ℚ) : Int := ⌊q + 1/2⌋

/-- JS `Math.round(x * 100) / 100` (round to 2 decimals). -/
def round2 (q : ℚ) : ℚ := (jsRound (q * 100) : ℚ) / 100

/-- JS `Math.round(x * 10) / 10` (round to 1 decimal). -/
def round1 (q : ℚ) : ℚ := (jsRound (q * 10) : ℚ) / 10

/-- Integer Newton iteration for square roots, with explicit fuel so that
it is structurally recursive. -/
def sqrtIter (fuel : Nat) (n guess : Nat) : Nat :=
  match fuel with
  | 0 => guess
  | fuel + 1 =>
    let next := (guess + n / guess) / 2
    if next < guess then sqrtIter fuel n next else guess

/-- Floor integer square root (Newton's method). -/
def natSqrt (n : Nat) : Nat := if n ≤ 1 then n else sqrtIter n n (n / 2 + 1)

/-- Computable model of JS `Math.sqrt` on ℚ: a non-negative rational
approximation (exact on perfect squares scaled by `10^12`).  Theorems in
this file use only its non-negativity. -/
def sqrtQ (q : ℚ) : ℚ := (natSqrt (q * 10 ^ 12).floor.toNat : ℚ) / 10 ^ 6

theorem sqrtQ_nonneg (q : ℚ) : 0 ≤ sqrtQ q := by
  unfold sqrtQ
  positivity

/-! ### Calendar dates -/

/-- A JS `Date` at local-calendar-day granularity: year, month (0-11 as in
`getMonth()`), day of month (1-based as in `getDate()`). -/
structure SDate where
  year : Int
  month : Nat
  day : Nat
deriving DecidableEq, Repr

def isLeap (y : Int) : Bool := y % 4 == 0 && (y % 100 != 0 || y % 400 == 0)

def daysInMonth (y : Int) (m : Nat) : Nat :=
  if m = 1 then (if isLeap y then 29 else 28)
  else if m = 3 ∨ m = 5 ∨ m = 8 ∨ m = 10 then 30 else 31

/-- Days since 1970-01-01 of a civil date (Howard Hinnant's
`days_from_civil`, with months 0-based).  Models `getTime()/86400000`. -/
def epochDay (d : SDate) : Int :=
  let m1 : Int := (d.month : Int) + 1
  let y : Int := d.year - (if m1 ≤ 2 then 1 else 0)
  let era : Int := Int.tdiv (if 0 ≤ y then y else y - 399) 400
  let yoe : Int := y - era * 400
  let mp : Int := if 2 < m1 then m1 - 3 else m1 + 9
  let doy : Int := Int.tdiv (153 * mp + 2) 5 + (d.day : Int) - 1
  let doe : Int := yoe * 365 + Int.tdiv yoe 4 - Int.tdiv yoe 100 + doy
  era * 146097 + doe - 719468

/-- The `(getFullYear(), getMonth())` pair of a date. -/
structure YM where
  year : Int
  month : Nat
deriving DecidableEq, Repr

def ymOf (d : SDate) : YM := ⟨d.year, d.month⟩

/-- The calendar month immediately preceding a year/month pair.  (Used in
specifications; the source's `setMonth(getMonth() - 1)` is modeled by
`jsAddMonths`, which coincides with this exactly when the date's day of
month also exists in the preceding month.) -/
def prevYM (ym : YM) : YM :=
  if ym.month = 0 then ⟨ym.year - 1, 11⟩ else ⟨ym.year, ym.month - 1⟩

/-- JS `new Date(d); .setMonth(d.getMonth() + k)`: month arithmetic with
JS's normalization (month wraps into the year; a day of month exceeding
the target month's length rolls into the following month). -/
def jsAddMonths (d : SDate) (k : Int) : SDate :=
  let mT : Int := (d.month : Int) + k
  let y1 : Int := d.year + Int.fdiv mT 12
  let m1 : Nat := (Int.fmod mT 12).toNat
  let dim := daysInMonth y1 m1
  if d.day ≤ dim then ⟨y1, m1, d.day⟩
  else if m1 = 11 then ⟨y1 + 1, 0, d.day - dim⟩ else ⟨y1, m1 + 1, d.day - dim⟩

/-! ### JS string primitives on `List Char` -/

/-- Whitespace removed by JS `String.prototype.trim`: the full ECMAScript
`TrimString` set — TAB, LF, VT, FF, CR, SP, NBSP, OGHAM SPACE, the
`U+2000`-`U+200A` spaces, LS, PS, NNBSP, MMSP, IDEOGRAPHIC SPACE and
ZWNBSP. -/
def jsWs (c : Char) : Bool :=
  decide (c.toNat = 9 ∨ c.toNat = 10 ∨ c.toNat = 11 ∨ c.toNat = 12 ∨ c.toNat = 13 ∨
    c.toNat = 32 ∨ c.toNat = 160 ∨ c.toNat = 5760 ∨
    (8192 ≤ c.toNat ∧ c.toNat ≤ 8202) ∨ c.toNat = 8232 ∨ c.toNat = 8233 ∨
    c.toNat = 8239 ∨ c.toNat = 8287 ∨ c.toNat = 12288 ∨ c.toNat = 65279)

/-- JS `trim`: drop trailing then leading whitespace. -/
def trimL (l : List Char) : List Char :=
  ((l.reverse.dropWhile jsWs).reverse).dropWhile jsWs

/-- JS `String.prototype.split` with a single-character separator:
`"".split(sep) = [""]`, and separators delimit (possibly empty) tokens. -/
def splitOnC (sep : Char) : List Char → List (List Char)
  | [] => [[]]
  | c :: cs =>
    if c = sep then [] :: splitOnC sep cs
    else
      match splitOnC sep cs with
      | [] => [[c]]
      | w :: ws => (c :: w) :: ws

/-- JS `Array.prototype.join` with a single-character separator. -/
def joinWith (sep : Char) : List (List Char) → List Char
  | [] => []
  | w :: ws =>
    match ws with
    | [] => w
    | _ :: _ => w ++ sep :: joinWith sep ws

/-- JS `word.charAt(0).toUpperCase() + word.slice(1).toLowerCase()`.
The case maps are Lean's ASCII `Char.toUpper`/`Char.toLower`, which agree
exactly with ECMAScript `toUpperCase`/`toLowerCase` on ASCII characters
(the ASCII case maps are closed and single-character).  ECMAScript's full
Unicode case conversion (e.g. `"ß".toUpperCase() = "SS"`) is outside this
model; the idempotence theorem below therefore restricts its claim to
ASCII strings, where the model is exact. -/
def titleWord (w : List Char) : List Char :=
  match w with
  | [] => []
  | c :: cs => c.toUpper :: cs.map Char.toLower

/-- Core of `normalizeCategory` on the trimmed character list: SNAKE_CASE
to Title Case when an underscore is present, else per-space-word title
casing. -/
def normChars (l : List Char) : List Char :=
  let t := trimL l
  if '_' ∈ t then joinWith ' ' ((splitOnC '_' t).map titleWord)
  else joinWith ' ' ((splitOnC ' ' t).map titleWord)

/-- `normalizeCategory(category: string | null): string` of the analytics
module (`!category` is JS falsiness: `null` and `""`). -/
def normalizeCategory : Option String → String
  | none => "Uncategorized"
  | some s =>
    if s = "" ∨ s = "Uncategorized" then "Uncategorized"
    else String.mk (normChars s.data)

/-! ### Transactions and signals -/

/-- The fields of a Plaid transaction row the engine reads. -/
structure Txn where
  id : String
  amount : ℚ
  date : SDate
  category : Option String
  name : String
  merchantName : Option String
deriving DecidableEq, Repr

inductive Trend
  | improving
  | declining
  | stable
deriving DecidableEq, Repr

inductive Freq
  | monthly
  | weekly
  | yearly
deriving DecidableEq, Repr

inductive FeasStatus
  | on_track
  | off_track
deriving DecidableEq, Repr

structure CategoryTrendSignal where
  category : String
  deltaPercent : ℚ
  monthlyImpact : ℚ
  confidence : ℚ
  currentMonth : ℚ
  previousMonth : ℚ
deriving DecidableEq, Repr

structure AnomalySignal where
  transactionId : String
  amount : ℚ
  date : SDate
  reason : String
  confidence : ℚ
deriving DecidableEq, Repr

structure RecurringChargeSignal where
  name : String
  amount : ℚ
  frequency : Freq
  confidence : ℚ
  transactionCount : Nat
deriving DecidableEq, Repr

structure CashflowSignal where
  monthlyIncome : ℚ
  monthlyExpenses : ℚ
  net : ℚ
  savingsRate : Option ℚ
  trend : Trend
deriving DecidableEq, Repr

/-! ### `detectCategoryTrends` -/

/-- The expense transactions (`amount < 0`) of a given calendar month. -/
def expTxns (txns : List Txn) (ym : YM) : List Txn :=
  txns.filter (fun t => decide (ymOf t.date = ym ∧ t.amount < 0))

/-- `Map.get(cat) || 0` of the per-category absolute-value totals built by
`detectCategoryTrends` for one month. -/
def catTotal (txns : List Txn) (ym : YM) (c : String) : ℚ :=
  (((expTxns txns ym).filter (fun t => decide (normalizeCategory t.category = c))).map
    (fun t => |t.amount|)).sum

/-- The union of categories seen in either month (`new Set([...keys])`). -/
def trendCats (txns : List Txn) (cur prev : YM) : List String :=
  (((expTxns txns cur).map (fun t => normalizeCategory t.category)) ++
    ((expTxns txns prev).map (fun t => normalizeCategory t.category))).dedup

/-- `Math.min(0.95, 0.7 + (Math.min(current, previous) / 1000) * 0.25)`. -/
def trendConfidence (current previous : ℚ) : ℚ :=
  min (95/100) (7/10 + min current previous / 1000 * (25/100))

/-- The `deltaPercent` of `detectCategoryTrends`. -/
def deltaPercentOf (current previous : ℚ) : ℚ :=
  if previous = 0 then (if 0 < current then 100 else 0)
  else (current - previous) / previous * 100

/-- The loop body of `detectCategoryTrends` for one category of the union. -/
def trendFor (txns : List Txn) (cur prev : YM) (c : String) : Option CategoryTrendSignal :=
  let current := catTotal txns cur c
  let previous := catTotal txns prev c
  if previous = 0 ∧ current = 0 then none
  else
    let dp := deltaPercentOf current previous
    if 10 < |dp| ∨ 20 < |current - previous| then
      some ⟨c, round1 dp, round2 (current - previous), trendConfidence current previous,
        current, previous⟩
    else none

def detectCategoryTrends (txns : List Txn) (cur prev : YM) : List CategoryTrendSignal :=
  (trendCats txns cur prev).filterMap (trendFor txns cur prev)

/-! ### `detectAnomalies` -/

/-- Absolute amounts of the expense transactions. -/
def expenseAmts (txns : List Txn) : List ℚ :=
  (txns.filter (fun t => decide (t.amount < 0))).map (fun t => |t.amount|)

def anomMean (txns : List Txn) : ℚ :=
  (expenseAmts txns).sum / ((expenseAmts txns).length : ℚ)

def anomVariance (txns : List Txn) : ℚ :=
  ((expenseAmts txns).map (fun v => (v - anomMean txns) ^ 2)).sum /
    ((expenseAmts txns).length : ℚ)

/-- `threshold = mean + 2 * stdDev`. -/
def anomThreshold (txns : List Txn) : ℚ :=
  anomMean txns + 2 * sqrtQ (anomVariance txns)

/-- The loop body of `detectAnomalies` for one transaction. -/
def anomalyFor (mean threshold : ℚ) (t : Txn) : Option AnomalySignal :=
  if t.amount < 0 ∧ threshold < |t.amount| then
    some ⟨t.id, t.amount, t.date,
      "Unusually large expense (" ++ toString (jsRound (|t.amount| / mean * 100)) ++
        "% above average)",
      min (9/10) (6/10 + |t.amount| / threshold * (3/10))⟩
  else none

def detectAnomalies (txns : List Txn) : List AnomalySignal :=
  if (expenseAmts txns).length < 3 then []
  else txns.filterMap (anomalyFor (anomMean txns) (anomThreshold txns))

/-! ### `detectRecurringCharges` -/

/-- `txn.merchantName || txn.name` (JS falsiness: `null` and `""` fall
back to `name`). -/
def merchComp (t : Txn) : String :=
  match t.merchantName with
  | some m => if m = "" then t.name else m
  | none => t.name

/-- The grouping key `` `${merchantName || name}_${Math.round(|amount| * 100)}` ``. -/
def chargeKey (t : Txn) : String :=
  merchComp t ++ "_" ++ toString (jsRound (|t.amount| * 100))

def expenseTxns (txns : List Txn) : List Txn :=
  txns.filter (fun t => decide (t.amount < 0))

/-- The keys of the `chargeGroups` map. -/
def chargeKeyList (txns : List Txn) : List String :=
  ((expenseTxns txns).map chargeKey).dedup

/-- The member transactions of one charge group, in input order. -/
def groupTxns (txns : List Txn) (k : String) : List Txn :=
  (expenseTxns txns).filter (fun t => decide (chargeKey t = k))

/-- The (unsorted) dates pushed into one charge group. -/
def groupDates (txns : List Txn) (k : String) : List Int :=
  (groupTxns txns k).map (fun t => epochDay t.date)

/-- `Math.abs(txn.amount)` of the transaction that created the group,
i.e. the first matching transaction in input order. -/
def groupAmount (txns : List Txn) (k : String) : ℚ :=
  match (groupTxns txns k).head? with
  | some t => |t.amount|
  | none => 0

/-- Successive differences (`intervals`) of a date list. -/
def gapsOf : List Int → List Int
  | a :: b :: rest => (b - a) :: gapsOf (b :: rest)
  | _ => []

def avgOf (l : List Int) : ℚ := ((l.sum : Int) : ℚ) / (l.length : ℚ)

def varOf (l : List Int) : ℚ :=
  (l.map (fun v => ((v : ℚ) - avgOf l) ^ 2)).sum / (l.length : ℚ)

/-- The frequency/confidence classification of the interval list. -/
def classifyIntervals (l : List Int) : Option (Freq × ℚ) :=
  if 25 ≤ avgOf l ∧ avgOf l ≤ 35 then some (Freq.monthly, max (1/2) (1 - varOf l / 100))
  else if 5 ≤ avgOf l ∧ avgOf l ≤ 9 then some (Freq.weekly, max (1/2) (1 - varOf l / 10))
  else if 360 ≤ avgOf l ∧ avgOf l ≤ 370 then some (Freq.yearly, 7/10)
  else none

/-- `key.split('_')[0]`. -/
def keyName (k : String) : String := String.mk ((splitOnC '_' k.data).headD [])

/-- The loop body of `detectRecurringCharges` for one group key. -/
def analyzeKey (txns : List Txn) (k : String) : Option RecurringChargeSignal :=
  let dates := groupDates txns k
  if dates.length < 2 then none
  else
    let ints := gapsOf (List.insertionSort (· ≤ ·) dates)
    match classifyIntervals ints with
    | some (f, c) =>
      if 1/2 < c then some ⟨keyName k, groupAmount txns k, f, round2 c, dates.length⟩
      else none
    | none => none

def detectRecurringCharges (txns : List Txn) : List RecurringChargeSignal :=
  (chargeKeyList txns).filterMap (analyzeKey txns)

/-! ### `calculateCashflow` -/

def monthTxns (txns : List Txn) (ym : YM) : List Txn :=
  txns.filter (fun t => decide (ymOf t.date = ym))

def monthIncome (txns : List Txn) (ym : YM) : ℚ :=
  (((monthTxns txns ym).filter (fun t => decide (0 < t.amount))).map (fun t => t.amount)).sum

def monthExpenses (txns : List Txn) (ym : YM) : ℚ :=
  |(((monthTxns txns ym).filter (fun t => decide (t.amount < 0))).map (fun t => t.amount)).sum|

def monthNet (txns : List Txn) (ym : YM) : ℚ := monthIncome txns ym - monthExpenses txns ym

/-- The trend classification of `calculateCashflow`: the comparison month
is `new Date(currentMonth); setMonth(getMonth() - 1)` (`jsAddMonths`,
including JS's day-of-month overflow, under which an end-of-month target
is compared with its own month). -/
def trendOf (txns : List Txn) (currentMonth : SDate) : Trend :=
  let net := monthNet txns (ymOf currentMonth)
  let prevNet := monthNet txns (ymOf (jsAddMonths currentMonth (-1)))
  if prevNet = 0 then Trend.stable
  else
    let change := (net - prevNet) / |prevNet| * 100
    if 5 < change then Trend.improving
    else if change < -5 then Trend.declining
    else Trend.stable

def calculateCashflow (txns : List Txn) (currentMonth : SDate) : CashflowSignal :=
  let income := monthIncome txns (ymOf currentMonth)
  let net := monthNet txns (ymOf currentMonth)
  { monthlyIncome := round2 income
    monthlyExpenses := round2 (monthExpenses txns (ymOf currentMonth))
    net := round2 net
    savingsRate := if 0 < income then some (round2 (net / income * 100)) else none
    trend := trendOf txns currentMonth }

/-! ### Goal feasibility (goal forecast route) -/

/-- One row of the route's `monthlyData` / `historySummary`. -/
structure MonthRec where
  month : String
  income : ℚ
  spend : ℚ
  net : ℚ
deriving DecidableEq, Repr

structure GoalFeasibility where
  requiredPerMonth : ℚ
  estimatedSurplusPerMonth : ℚ
  gapPerMonth : ℚ
  status : FeasStatus
deriving DecidableEq, Repr

/-- `Math.max(1, Math.ceil((targetDate - now) / (86400000 * 30)))`. -/
def monthsRemaining (targetDate now : SDate) : Int :=
  max 1 ⌈((epochDay targetDate - epochDay now : ℚ) / 30)⌉

def requiredPerMonth (targetAmount : ℚ) (targetDate now : SDate) : ℚ :=
  targetAmount / (monthsRemaining targetDate now : ℚ)

/-- `recentTransactions`: dates on or after `now` minus three months. -/
def recentTxns (txns : List Txn) (now : SDate) : List Txn :=
  txns.filter (fun t => decide (epochDay (jsAddMonths now (-3)) ≤ epochDay t.date))

def pad2 (n : Nat) : String := if n < 10 then "0" ++ toString n else toString n

/-- `` `${y}-${String(m + 1).padStart(2, '0')}` ``. -/
def monthLabel (d : SDate) : String := toString d.year ++ "-" ++ pad2 (d.month + 1)

/-- One iteration of the route's trailing-month loop (`i ∈ {2,1,0}`). -/
def monthRecFor (txns : List Txn) (now : SDate) (i : Nat) : MonthRec :=
  let md := jsAddMonths now (-(i : Int))
  let mt := (recentTxns txns now).filter (fun t => decide (ymOf t.date = ymOf md))
  let income := ((mt.filter (fun t => decide (0 < t.amount))).map (fun t => t.amount)).sum
  let expenses := |((mt.filter (fun t => decide (t.amount < 0))).map (fun t => t.amount)).sum|
  ⟨monthLabel md, round2 income, round2 expenses, round2 (income - expenses)⟩

def monthlyData (txns : List Txn) (now : SDate) : List MonthRec :=
  [monthRecFor txns now 2, monthRecFor txns now 1, monthRecFor txns now 0]

/-- Average of the (rounded) trailing-month nets; the `length > 0` guard
mirrors the source (the list always has three entries). -/
def baselineSurplus (txns : List Txn) (now : SDate) : ℚ :=
  let md := monthlyData txns now
  if 0 < md.length then ((md.map (fun m => m.net)).sum) / (md.length : ℚ) else 0

def gapPerMonthOf (txns : List Txn) (amt : ℚ) (td now : SDate) : ℚ :=
  requiredPerMonth amt td now - baselineSurplus txns now

def computeFeasibility (txns : List Txn) (amt : ℚ) (td now : SDate) : GoalFeasibility :=
  { requiredPerMonth := round2 (requiredPerMonth amt td now)
    estimatedSurplusPerMonth := round2 (baselineSurplus txns now)
    gapPerMonth := round2 (gapPerMonthOf txns amt td now)
    status := if gapPerMonthOf txns amt td now ≤ 0 then FeasStatus.on_track
      else FeasStatus.off_track }

/-! ### Concrete example data -/

/-- Two expenses a month apart (spec's end-to-end cashflow scenario). -/
def exC7 : List Txn :=
  [⟨"t1", -100, ⟨2024, 0, 5⟩, some "Food", "a", none⟩,
   ⟨"t2", -50, ⟨2024, 1, 5⟩, some "Food", "a", none⟩]

/-- A single $21 expense in the current month (trend-gate example). -/
def exC4a : List Txn := [⟨"t1", -21, ⟨2024, 1, 10⟩, some "Food", "a", none⟩]

/-- $15 current vs $14 previous in one category (below both gates). -/
def exC4b : List Txn :=
  [⟨"t1", -15, ⟨2024, 1, 10⟩, some "Food", "a", none⟩,
   ⟨"t2", -14, ⟨2024, 0, 10⟩, some "Food", "a", none⟩]

/-- Three identical charges at exact 30-day spacing (2024 is a leap year:
Jan 1 → Jan 31 → Mar 1 are gaps of 30 and 30 days). -/
def exC5 : List Txn :=
  [⟨"t1", -999/100, ⟨2024, 0, 1⟩, none, "NETFLIX.COM", some "Netflix"⟩,
   ⟨"t2", -999/100, ⟨2024, 0, 31⟩, none, "NETFLIX.COM", some "Netflix"⟩,
   ⟨"t3", -999/100, ⟨2024, 2, 1⟩, none, "NETFLIX.COM", some "Netflix"⟩]

/-- One expense and no income in the target month. -/
def exC8a : List Txn := [⟨"t1", -50, ⟨2024, 1, 5⟩, some "Food", "a", none⟩]

/-- Income 200 and one expense 50 in the target month. -/
def exC8b : List Txn :=
  [⟨"t1", 200, ⟨2024, 1, 3⟩, none, "payroll", none⟩,
   ⟨"t2", -50, ⟨2024, 1, 5⟩, some "Food", "a", none⟩]

/-- Two expenses (below the anomaly floor) plus three income rows. -/
def exC9 : List Txn :=
  [⟨"t1", -5, ⟨2024, 1, 1⟩, none, "a", none⟩,
   ⟨"t2", -5000, ⟨2024, 1, 2⟩, none, "b", none⟩,
   ⟨"t3", 10, ⟨2024, 1, 3⟩, none, "c", none⟩,
   ⟨"t4", 20, ⟨2024, 1, 4⟩, none, "d", none⟩,
   ⟨"t5", 30, ⟨2024, 1, 5⟩, none, "e", none⟩]

/-- Nine $10 expenses and one $100 expense: mean 19, population variance
729, model stdDev 27, threshold 73 < 100, so the $100 row is flagged. -/
def exC10 : List Txn :=
  [⟨"t1", -10, ⟨2024, 0, 1⟩, none, "a", none⟩,
   ⟨"t2", -10, ⟨2024, 0, 2⟩, none, "a", none⟩,
   ⟨"t3", -10, ⟨2024, 0, 3⟩, none, "a", none⟩,
   ⟨"t4", -10, ⟨2024, 0, 4⟩, none, "a", none⟩,
   ⟨"t5", -10, ⟨2024, 0, 5⟩, none, "a", none⟩,
   ⟨"t6", -10, ⟨2024, 0, 6⟩, none, "a", none⟩,
   ⟨"t7", -10, ⟨2024, 0, 7⟩, none, "a", none⟩,
   ⟨"t8", -10, ⟨2024, 0, 8⟩, none, "a", none⟩,
   ⟨"t9", -10, ⟨2024, 0, 9⟩, none, "a", none⟩,
   ⟨"t10", -100, ⟨2024, 0, 10⟩, none, "a", none⟩]

/-- The anomaly signal `detectAnomalies` emits on `exC10`. -/
def sigC10 : AnomalySignal :=
  ⟨"t10", -100, ⟨2024, 0, 10⟩, "Unusually large expense (526% above average)", 9/10⟩

/-- The recurring-charge signal emitted on `exC5`. -/
def sigC5 : RecurringChargeSignal := ⟨"Netflix", 999/100, Freq.monthly, 1, 3⟩

/-! ### Claims C6-C10 -/

/-- C6: the Goal Feasibility Calculator returns status `on_track` iff
`gapPerMonth ≤ 0` (non-strict: a gap of exactly 0 is `on_track`), where
`gapPerMonth = requiredPerMonth - baselineSurplusPerMonth`. -/
theorem claim_C6 : ∀ (txns : List Txn) (amt : ℚ) (td now : SDate),
    ((computeFeasibility txns amt td now).status = FeasStatus.on_track ↔
      gapPerMonthOf txns amt td now ≤ 0) ∧
    gapPerMonthOf txns amt td now = requiredPerMonth amt td now - baselineSurplus txns now := by
  intro txns amt td now
  refine ⟨?_, rfl⟩
  unfold computeFeasibility
  by_cases h : gapPerMonthOf txns amt td now ≤ 0
  · simp [h]
  · simp [h]

/-- Every month has at least 28 days. -/
theorem daysInMonth_ge (y : Int) (m : Nat) : 28 ≤ daysInMonth y m := by
  unfold daysInMonth
  split_ifs <;> omega

/-- For a date whose day of month is at most 28, `setMonth(getMonth()-1)`
lands in the immediately preceding calendar month (no day-of-month
overflow). -/
theorem ymOf_jsAddMonths_neg_one (d : SDate) (hm : d.month ≤ 11) (hd : d.day ≤ 28) :
    ymOf (jsAddMonths d (-1)) = prevYM (ymOf d) := by
  by_cases h0 : d.month = 0
  · have hadd : jsAddMonths d (-1) = ⟨d.year - 1, 11, d.day⟩ := by
      simp only [jsAddMonths, h0]
      rw [show ((0 : Nat) : Int) + (-1) = -1 from by norm_num]
      rw [show Int.fdiv (-1) 12 = -1 from by decide,
        show Int.fmod (-1) 12 = 11 from by decide]
      rw [show ((11 : Int)).toNat = 11 from rfl]
      rw [if_pos (le_trans hd (daysInMonth_ge _ _))]
      congr 1
    rw [hadd]
    simp [ymOf, prevYM, h0]
  · have h1 : 1 ≤ d.month := Nat.one_le_iff_ne_zero.mpr h0
    have hadd : jsAddMonths d (-1) = ⟨d.year, d.month - 1, d.day⟩ := by
      simp only [jsAddMonths]
      have ha : (0 : Int) ≤ (d.month : Int) + (-1) := by omega
      have hb : (d.month : Int) + (-1) < 12 := by omega
      rw [Int.fdiv_eq_ediv _ (by norm_num), Int.ediv_eq_zero_of_lt ha hb]
      rw [Int.fmod_eq_emod _ (by norm_num), Int.emod_eq_of_lt ha hb]
      rw [show ((d.month : Int) + (-1)).toNat = d.month - 1 from by omega]
      rw [if_pos (le_trans hd (daysInMonth_ge _ _))]
      congr 1
      omega
    rw [hadd]
    simp only [ymOf, prevYM]
    rw [if_neg h0]

/-- C7 (amended): `calculateCashflow` classifies trend from the net of
the month reached by `setMonth(getMonth() - 1)` on the target date —
which is the immediately preceding calendar month exactly when the
target's day of month is at most 28, while for overflowing end-of-month
targets JS date normalization rolls it back into the target's own month —
`stable` when that comparison net is exactly 0, else
`improving`/`declining`/`stable` by whether
`(net - prevNet)/|prevNet| * 100` exceeds 5 / is below -5 / is in
between; on the two-expense scenario (−100 in January, −50 in February,
evaluated at February 5) the result is `{monthlyIncome 0,
monthlyExpenses 50, net -50, savingsRate null, trend improving}`. -/
theorem claim_C7 :
    (∀ (txns : List Txn) (d : SDate), (calculateCashflow txns d).trend =
      (if monthNet txns (ymOf (jsAddMonths d (-1))) = 0 then Trend.stable
       else if 5 < (monthNet txns (ymOf d) - monthNet txns (ymOf (jsAddMonths d (-1)))) /
          |monthNet txns (ymOf (jsAddMonths d (-1)))| * 100 then Trend.improving
       else if (monthNet txns (ymOf d) - monthNet txns (ymOf (jsAddMonths d (-1)))) /
          |monthNet txns (ymOf (jsAddMonths d (-1)))| * 100 < -5 then Trend.declining
       else Trend.stable)) ∧
    (∀ d : SDate, d.month ≤ 11 → d.day ≤ 28 →
      ymOf (jsAddMonths d (-1)) = prevYM (ymOf d)) ∧
    calculateCashflow exC7 ⟨2024, 1, 5⟩ = ⟨0, 50, -50, none, Trend.improving⟩ := by
  refine ⟨?_, ymOf_jsAddMonths_neg_one, by with_unfolding_all decide⟩
  intro txns d
  rfl

/-- Two income months for the C7 counterexample: net 100 in February
2024, net 200 in March 2024. -/
def txns7cex : List Txn :=
  [⟨"p1", 100, ⟨2024, 1, 5⟩, none, "payroll", none⟩,
   ⟨"p2", 200, ⟨2024, 2, 5⟩, none, "payroll", none⟩]

/-- Counterexample to C7 as stated: evaluated at March 31, 2024,
`setMonth(getMonth()-1)` produces February 31 which JS normalizes to
March 2, so the code compares March with itself and reports `stable`,
although the immediately preceding month's net is 100 ≠ 0 and the
month-over-month change is +100% > 5%, for which the claim requires
`improving`. -/
theorem claim_C7_cex :
    (calculateCashflow txns7cex ⟨2024, 2, 31⟩).trend = Trend.stable ∧
    ymOf (jsAddMonths ⟨2024, 2, 31⟩ (-1)) = ymOf ⟨2024, 2, 31⟩ ∧
    monthNet txns7cex (prevYM (ymOf ⟨2024, 2, 31⟩)) = 100 ∧
    monthNet txns7cex (ymOf ⟨2024, 2, 31⟩) = 200 ∧
    (5 : ℚ) < (monthNet txns7cex (ymOf ⟨2024, 2, 31⟩) -
        monthNet txns7cex (prevYM (ymOf ⟨2024, 2, 31⟩))) /
      |monthNet txns7cex (prevYM (ymOf ⟨2024, 2, 31⟩))| * 100 := by
  with_unfolding_all decide

/-- Witness for C7's no-overflow clause at a concrete date. -/
theorem claim_C7_witness :
    (⟨2024, 1, 5⟩ : SDate).month ≤ 11 ∧ (⟨2024, 1, 5⟩ : SDate).day ≤ 28 ∧
    ymOf (jsAddMonths ⟨2024, 1, 5⟩ (-1)) = prevYM (ymOf ⟨2024, 1, 5⟩) :=
  ⟨by decide, by decide, claim_C7.2.1 ⟨2024, 1, 5⟩ (by decide) (by decide)⟩

/-- C8: when the target month has no income (no positive-amount
transaction in it), `calculateCashflow` reports `savingsRate = none` (the
model of JS `null`; never a number, so never `NaN`/`Infinity`), and when
income is positive it reports `net / income * 100` rounded to two
decimals. -/
theorem claim_C8 : ∀ (txns : List Txn) (d : SDate),
    ((∀ t ∈ txns, ymOf t.date = ymOf d → t.amount ≤ 0) →
      (calculateCashflow txns d).savingsRate = none) ∧
    (0 < monthIncome txns (ymOf d) →
      (calculateCashflow txns d).savingsRate =
        some (round2 (monthNet txns (ymOf d) / monthIncome txns (ymOf d) * 100))) := by
  intro txns d
  constructor
  · intro h
    have h0 : monthIncome txns (ymOf d) = 0 := by
      unfold monthIncome
      have : (monthTxns txns (ymOf d)).filter (fun t => decide (0 < t.amount)) = [] := by
        rw [List.filter_eq_nil_iff]
        intro t ht
        rw [monthTxns, List.mem_filter] at ht
        have h1 : t.amount ≤ 0 := h t ht.1 (of_decide_eq_true ht.2)
        simpa using not_lt.mpr h1
      rw [this]
      rfl
    simp [calculateCashflow, h0]
  · intro h
    simp [calculateCashflow, h, monthNet]

/-- C9: with fewer than 3 expense transactions (`amount < 0`),
`detectAnomalies` returns the empty list, regardless of the amounts and of
how many non-expense transactions are present. -/
theorem claim_C9 : ∀ txns : List Txn,
    (expenseTxns txns).length < 3 → detectAnomalies txns = [] := by
  intro txns h
  unfold detectAnomalies
  rw [if_pos]
  unfold expenseAmts
  rw [List.length_map]
  exact h

/-- Every absolute expense amount is positive, so with at least one
expense the mean is positive. -/
theorem anomMean_pos (txns : List Txn) (h : 3 ≤ (expenseAmts txns).length) :
    0 < anomMean txns := by
  unfold anomMean
  apply div_pos
  · apply List.sum_pos
    · intro x hx
      unfold expenseAmts at hx
      rw [List.mem_map] at hx
      obtain ⟨t, ht, rfl⟩ := hx
      rw [List.mem_filter] at ht
      exact abs_pos.mpr (of_decide_eq_true ht.2).ne
    · intro hnil
      rw [hnil] at h
      simp at h
  · have : 0 < (expenseAmts txns).length := by omega
    exact_mod_cast this

/-- C10: every anomaly signal is emitted with confidence exactly 0.9: a
transaction is flagged only when `|amount|` strictly exceeds the positive
threshold `mean + 2·stdDev`, so `min(0.9, 0.6 + (|amount|/threshold)·0.3)`
always hits its 0.9 cap. -/
theorem claim_C10 : ∀ (txns : List Txn) (s : AnomalySignal),
    s ∈ detectAnomalies txns → s.confidence = 9/10 := by
  intro txns s hs
  unfold detectAnomalies at hs
  by_cases hlen : (expenseAmts txns).length < 3
  · rw [if_pos hlen] at hs
    simp at hs
  · rw [if_neg hlen] at hs
    rw [List.mem_filterMap] at hs
    obtain ⟨t, _, hft⟩ := hs
    unfold anomalyFor at hft
    split at hft
    · rename_i hcond
      obtain ⟨hneg, hgt⟩ := hcond
      simp only [Option.some.injEq] at hft
      subst hft
      show min (9/10 : ℚ) (6/10 + |t.amount| / anomThreshold txns * (3/10)) = 9/10
      have hmean : 0 < anomMean txns := anomMean_pos txns (by omega)
      have hsq : 0 ≤ sqrtQ (anomVariance txns) := sqrtQ_nonneg _
      have hth : 0 < anomThreshold txns := by
        unfold anomThreshold
        linarith
      have hr : 1 < |t.amount| / anomThreshold txns := (one_lt_div hth).mpr hgt
      have h9 : (9/10 : ℚ) < 6/10 + |t.amount| / anomThreshold txns * (3/10) := by
        have := mul_lt_mul_of_pos_right hr (show (0:ℚ) < 3/10 by norm_num)
        linarith
      exact min_eq_left h9.le
    · exact absurd hft (by simp)

/-! ### Claim C1: order independence -/

/-- A recurring-charge signal with the `amount` field ignored. -/
def recProj (s : RecurringChargeSignal) : String × Freq × ℚ × Nat :=
  (s.name, s.frequency, s.confidence, s.transactionCount)

theorem expTxns_perm {l₁ l₂ : List Txn} (h : l₁.Perm l₂) (ym : YM) :
    (expTxns l₁ ym).Perm (expTxns l₂ ym) := h.filter _

theorem catTotal_congr {l₁ l₂ : List Txn} (h : l₁.Perm l₂) (ym : YM) (c : String) :
    catTotal l₁ ym c = catTotal l₂ ym c :=
  (((expTxns_perm h ym).filter _).map _).sum_eq

theorem trendCats_perm {l₁ l₂ : List Txn} (h : l₁.Perm l₂) (cur prev : YM) :
    (trendCats l₁ cur prev).Perm (trendCats l₂ cur prev) :=
  (((expTxns_perm h cur).map _).append ((expTxns_perm h prev).map _)).dedup

theorem trendFor_congr {l₁ l₂ : List Txn} (h : l₁.Perm l₂) (cur prev : YM) :
    trendFor l₁ cur prev = trendFor l₂ cur prev := by
  funext c
  simp only [trendFor, catTotal_congr h]

theorem detectCategoryTrends_perm {l₁ l₂ : List Txn} (h : l₁.Perm l₂) (cur prev : YM) :
    (detectCategoryTrends l₁ cur prev).Perm (detectCategoryTrends l₂ cur prev) := by
  unfold detectCategoryTrends
  rw [trendFor_congr h cur prev]
  exact (trendCats_perm h cur prev).filterMap _

theorem expenseTxns_perm {l₁ l₂ : List Txn} (h : l₁.Perm l₂) :
    (expenseTxns l₁).Perm (expenseTxns l₂) := h.filter _

theorem expenseAmts_perm {l₁ l₂ : List Txn} (h : l₁.Perm l₂) :
    (expenseAmts l₁).Perm (expenseAmts l₂) := (h.filter _).map _

theorem anomMean_congr {l₁ l₂ : List Txn} (h : l₁.Perm l₂) :
    anomMean l₁ = anomMean l₂ := by
  unfold anomMean
  rw [(expenseAmts_perm h).sum_eq, (expenseAmts_perm h).length_eq]

theorem anomVariance_congr {l₁ l₂ : List Txn} (h : l₁.Perm l₂) :
    anomVariance l₁ = anomVariance l₂ := by
  unfold anomVariance
  rw [anomMean_congr h, ((expenseAmts_perm h).map _).sum_eq, (expenseAmts_perm h).length_eq]

theorem anomThreshold_congr {l₁ l₂ : List Txn} (h : l₁.Perm l₂) :
    anomThreshold l₁ = anomThreshold l₂ := by
  unfold anomThreshold
  rw [anomMean_congr h, anomVariance_congr h]

theorem detectAnomalies_perm {l₁ l₂ : List Txn} (h : l₁.Perm l₂) :
    (detectAnomalies l₁).Perm (detectAnomalies l₂) := by
  unfold detectAnomalies
  rw [(expenseAmts_perm h).length_eq, anomMean_congr h, anomThreshold_congr h]
  by_cases hc : (expenseAmts l₂).length < 3
  · rw [if_pos hc, if_pos hc]
  · rw [if_neg hc, if_neg hc]
    exact h.filterMap _

theorem chargeKeyList_perm {l₁ l₂ : List Txn} (h : l₁.Perm l₂) :
    (chargeKeyList l₁).Perm (chargeKeyList l₂) :=
  ((h.filter _).map _).dedup

theorem groupTxns_perm {l₁ l₂ : List Txn} (h : l₁.Perm l₂) (k : String) :
    (groupTxns l₁ k).Perm (groupTxns l₂ k) := (expenseTxns_perm h).filter _

theorem groupDates_perm {l₁ l₂ : List Txn} (h : l₁.Perm l₂) (k : String) :
    (groupDates l₁ k).Perm (groupDates l₂ k) := (groupTxns_perm h k).map _

theorem sortedDates_congr {l₁ l₂ : List Txn} (h : l₁.Perm l₂) (k : String) :
    List.insertionSort (· ≤ ·) (groupDates l₁ k) =
      List.insertionSort (· ≤ ·) (groupDates l₂ k) :=
  List.eq_of_perm_of_sorted
    (((List.perm_insertionSort _ _).trans (groupDates_perm h k)).trans
      (List.perm_insertionSort _ _).symm)
    (List.sorted_insertionSort _ _) (List.sorted_insertionSort _ _)

theorem analyzeKey_proj_congr {l₁ l₂ : List Txn} (h : l₁.Perm l₂) :
    (fun k => (analyzeKey l₁ k).map recProj) =
      (fun k => (analyzeKey l₂ k).map recProj) := by
  funext k
  simp only [analyzeKey]
  rw [(groupDates_perm h k).length_eq, sortedDates_congr h k]
  by_cases hlen : (groupDates l₂ k).length < 2
  · rw [if_pos hlen, if_pos hlen]
  · rw [if_neg hlen, if_neg hlen]
    rcases classifyIntervals (gapsOf
      (List.insertionSort (· ≤ ·) (groupDates l₂ k))) with _ | ⟨f, c⟩
    · rfl
    · dsimp only
      by_cases hc : 1/2 < c
      · rw [if_pos hc, if_pos hc]
        simp [recProj]
      · rw [if_neg hc, if_neg hc]

theorem detectRecurringCharges_proj_perm {l₁ l₂ : List Txn} (h : l₁.Perm l₂) :
    ((detectRecurringCharges l₁).map recProj).Perm
      ((detectRecurringCharges l₂).map recProj) := by
  unfold detectRecurringCharges
  rw [List.map_filterMap, List.map_filterMap, analyzeKey_proj_congr h]
  exact (chargeKeyList_perm h).filterMap _

theorem monthTxns_perm {l₁ l₂ : List Txn} (h : l₁.Perm l₂) (ym : YM) :
    (monthTxns l₁ ym).Perm (monthTxns l₂ ym) := h.filter _

theorem monthIncome_congr {l₁ l₂ : List Txn} (h : l₁.Perm l₂) (ym : YM) :
    monthIncome l₁ ym = monthIncome l₂ ym :=
  (((monthTxns_perm h ym).filter _).map _).sum_eq

theorem monthExpenses_congr {l₁ l₂ : List Txn} (h : l₁.Perm l₂) (ym : YM) :
    monthExpenses l₁ ym = monthExpenses l₂ ym := by
  unfold monthExpenses
  rw [(((monthTxns_perm h ym).filter _).map _).sum_eq]

theorem monthNet_congr {l₁ l₂ : List Txn} (h : l₁.Perm l₂) (ym : YM) :
    monthNet l₁ ym = monthNet l₂ ym := by
  unfold monthNet
  rw [monthIncome_congr h ym, monthExpenses_congr h ym]

theorem calculateCashflow_congr {l₁ l₂ : List Txn} (h : l₁.Perm l₂) (d : SDate) :
    calculateCashflow l₁ d = calculateCashflow l₂ d := by
  unfold calculateCashflow trendOf
  simp only [monthIncome_congr h, monthExpenses_congr h, monthNet_congr h]

theorem recentTxns_perm {l₁ l₂ : List Txn} (h : l₁.Perm l₂) (now : SDate) :
    (recentTxns l₁ now).Perm (recentTxns l₂ now) := h.filter _

theorem monthRecFor_congr {l₁ l₂ : List Txn} (h : l₁.Perm l₂) (now : SDate) (i : Nat) :
    monthRecFor l₁ now i = monthRecFor l₂ now i := by
  have hmt : ((recentTxns l₁ now).filter
        (fun t => decide (ymOf t.date = ymOf (jsAddMonths now (-(i : Int)))))).Perm
      ((recentTxns l₂ now).filter
        (fun t => decide (ymOf t.date = ymOf (jsAddMonths now (-(i : Int)))))) :=
    (recentTxns_perm h now).filter _
  simp only [monthRecFor]
  rw [((hmt.filter (fun t => decide (0 < t.amount))).map (fun t => t.amount)).sum_eq,
    ((hmt.filter (fun t => decide (t.amount < 0))).map (fun t => t.amount)).sum_eq]

theorem monthlyData_congr {l₁ l₂ : List Txn} (h : l₁.Perm l₂) (now : SDate) :
    monthlyData l₁ now = monthlyData l₂ now := by
  unfold monthlyData
  rw [monthRecFor_congr h now 2, monthRecFor_congr h now 1, monthRecFor_congr h now 0]

theorem baselineSurplus_congr {l₁ l₂ : List Txn} (h : l₁.Perm l₂) (now : SDate) :
    baselineSurplus l₁ now = baselineSurplus l₂ now := by
  unfold baselineSurplus
  rw [monthlyData_congr h now]

theorem computeFeasibility_congr {l₁ l₂ : List Txn} (h : l₁.Perm l₂) (amt : ℚ)
    (td now : SDate) : computeFeasibility l₁ amt td now = computeFeasibility l₂ amt td now := by
  unfold computeFeasibility gapPerMonthOf
  rw [baselineSurplus_congr h now]

/-- C1 (amended): for every pair of permuted transaction lists,
`detectCategoryTrends`, `detectAnomalies`, `calculateCashflow` and the
goal-feasibility computation give permutation-equal (resp. equal) results,
and `detectRecurringCharges` gives permutation-equal results once the
`amount` field is ignored (name, frequency, confidence and
transactionCount are preserved); the `amount` field itself is the
first-seen amount of the group and may depend on input order. -/
theorem claim_C1 : ∀ (l₁ l₂ : List Txn), l₁.Perm l₂ →
    ∀ (cur prev : YM) (dc : SDate) (amt : ℚ) (td now : SDate),
    (detectCategoryTrends l₁ cur prev).Perm (detectCategoryTrends l₂ cur prev) ∧
    (detectAnomalies l₁).Perm (detectAnomalies l₂) ∧
    ((detectRecurringCharges l₁).map recProj).Perm
      ((detectRecurringCharges l₂).map recProj) ∧
    calculateCashflow l₁ dc = calculateCashflow l₂ dc ∧
    computeFeasibility l₁ amt td now = computeFeasibility l₂ amt td now := by
  intro l₁ l₂ h cur prev dc amt td now
  exact ⟨detectCategoryTrends_perm h cur prev, detectAnomalies_perm h,
    detectRecurringCharges_proj_perm h, calculateCashflow_congr h dc,
    computeFeasibility_congr h amt td now⟩

/-- Two charges of the same merchant whose distinct amounts round to the
same cent key. -/
def cexC1a : Txn := ⟨"c1", -9991/1000, ⟨2024, 0, 1⟩, none, "M", some "M"⟩

/-- See `cexC1a`. -/
def cexC1b : Txn := ⟨"c2", -9994/1000, ⟨2024, 0, 31⟩, none, "M", some "M"⟩

/-- Counterexample to C1 as stated: swapping two grouped transactions
changes the emitted `amount` (the group records the first-seen amount), so
the full signal sets differ. -/
theorem claim_C1_cex :
    ([cexC1a, cexC1b] : List Txn).Perm [cexC1b, cexC1a] ∧
    ¬ (detectRecurringCharges [cexC1a, cexC1b]).Perm
        (detectRecurringCharges [cexC1b, cexC1a]) := by
  constructor
  · exact List.Perm.swap _ _ _
  · with_unfolding_all decide

/-- Witness for C1 at a concrete permutation. -/
theorem claim_C1_witness :
    exC7.Perm exC7.reverse ∧
    ((detectCategoryTrends exC7 ⟨2024, 1⟩ ⟨2024, 0⟩).Perm
        (detectCategoryTrends exC7.reverse ⟨2024, 1⟩ ⟨2024, 0⟩) ∧
      (detectAnomalies exC7).Perm (detectAnomalies exC7.reverse) ∧
      ((detectRecurringCharges exC7).map recProj).Perm
        ((detectRecurringCharges exC7.reverse).map recProj) ∧
      calculateCashflow exC7 ⟨2024, 1, 5⟩ = calculateCashflow exC7.reverse ⟨2024, 1, 5⟩ ∧
      computeFeasibility exC7 1200 ⟨2025, 0, 1⟩ ⟨2024, 1, 15⟩ =
        computeFeasibility exC7.reverse 1200 ⟨2025, 0, 1⟩ ⟨2024, 1, 15⟩) :=
  ⟨by with_unfolding_all decide,
   claim_C1 exC7 exC7.reverse (by with_unfolding_all decide) ⟨2024, 1⟩ ⟨2024, 0⟩
     ⟨2024, 1, 5⟩ 1200 ⟨2025, 0, 1⟩ ⟨2024, 1, 15⟩⟩

/-! ### Claim C3 -/

theorem splitOnC_ne_nil (sep : Char) (l : List Char) : splitOnC sep l ≠ [] := by
  induction l with
  | nil => simp [splitOnC]
  | cons c cs ih =>
    by_cases hc : c = sep
    · simp [splitOnC, hc]
    · rcases hS : splitOnC sep cs with _ | ⟨w, ws⟩
      · exact absurd hS ih
      · simp [splitOnC, hc, hS]

/-- The first token of a JS `split` is the prefix before the first
separator occurrence. -/
theorem splitOnC_headD (sep : Char) (l : List Char) :
    (splitOnC sep l).headD [] = l.takeWhile (fun c => c != sep) := by
  induction l with
  | nil => simp [splitOnC]
  | cons c cs ih =>
    by_cases hc : c = sep
    · simp [splitOnC, hc, List.takeWhile]
    · rcases hS : splitOnC sep cs with _ | ⟨w, ws⟩
      · exact absurd hS (splitOnC_ne_nil sep cs)
      · rw [hS] at ih
        simp only [splitOnC, if_neg hc, hS, List.headD_cons, List.takeWhile_cons]
        simp only [List.headD_cons] at ih
        have hb : (c != sep) = true := bne_iff_ne.mpr hc
        rw [hb]
        simp [ih]

theorem takeWhile_append_sep (sep : Char) (a b : List Char) :
    ((a ++ sep :: b).takeWhile (fun c => c != sep)) =
      a.takeWhile (fun c => c != sep) := by
  induction a with
  | nil => simp [List.takeWhile_cons]
  | cons d a' ih =>
    by_cases hd : d = sep
    · simp [List.takeWhile_cons, hd]
    · have hb : (d != sep) = true := bne_iff_ne.mpr hd
      simp only [List.cons_append, List.takeWhile_cons, hb]
      simp [ih]

/-- Every emitted signal carries `key.split('_')[0]` as its name. -/
theorem analyzeKey_name {txns : List Txn} {k : String} {s : RecurringChargeSignal}
    (h : analyzeKey txns k = some s) : s.name = keyName k := by
  simp only [analyzeKey] at h
  by_cases hlen : (groupDates txns k).length < 2
  · rw [if_pos hlen] at h
    exact Option.noConfusion h
  · rw [if_neg hlen] at h
    rcases hcl : classifyIntervals (gapsOf
        (List.insertionSort (· ≤ ·) (groupDates txns k))) with _ | ⟨f, c⟩
    · rw [hcl] at h
      exact Option.noConfusion h
    · rw [hcl] at h
      dsimp only at h
      by_cases hc : 1/2 < c
      · rw [if_pos hc] at h
        simp only [Option.some.injEq] at h
        subst h
        rfl
      · rw [if_neg hc] at h
        exact Option.noConfusion h

/-- The name extracted from a transaction's grouping key is the merchant
component truncated at its first underscore. -/
theorem keyName_chargeKey (t : Txn) :
    keyName (chargeKey t) =
      String.mk ((merchComp t).data.takeWhile (fun c => c != '_')) := by
  unfold keyName
  congr 1
  have hdata : (chargeKey t).data =
      (merchComp t).data ++ '_' :: (toString (jsRound (|t.amount| * 100))).data := by
    simp [chargeKey, String.data_append]
  rw [hdata, splitOnC_headD, takeWhile_append_sep]

/-- C3 (amended): every emitted RecurringCharge's `name` equals the
portion of its group's merchant/name component before the first
underscore (`key.split('_')[0]` on the key `` `${merchant}_${cents}` ``);
when the merchant/name component contains no underscore this is the full
component, as the original claim states. -/
theorem claim_C3 : ∀ (txns : List Txn) (s : RecurringChargeSignal),
    s ∈ detectRecurringCharges txns →
    ∃ t, t ∈ txns ∧ t.amount < 0 ∧
      s.name = String.mk ((merchComp t).data.takeWhile (fun c => c != '_')) ∧
      ('_' ∉ (merchComp t).data → s.name = merchComp t) := by
  intro txns s hs
  unfold detectRecurringCharges at hs
  rw [List.mem_filterMap] at hs
  obtain ⟨k, hk, ha⟩ := hs
  unfold chargeKeyList at hk
  rw [List.mem_dedup, List.mem_map] at hk
  obtain ⟨t, ht, rfl⟩ := hk
  rw [expenseTxns, List.mem_filter] at ht
  have hname : s.name = String.mk ((merchComp t).data.takeWhile (fun c => c != '_')) := by
    rw [analyzeKey_name ha, keyName_chargeKey]
  refine ⟨t, ht.1, of_decide_eq_true ht.2, hname, ?_⟩
  intro hnu
  rw [hname]
  have heq : (merchComp t).data.takeWhile (fun c => c != '_') = (merchComp t).data := by
    rw [List.takeWhile_eq_self_iff]
    intro c hc
    exact bne_iff_ne.mpr (fun heq => hnu (heq ▸ hc))
  rw [heq]

/-- Two monthly charges of a merchant whose name contains an
underscore. -/
def cexC3a : Txn := ⟨"c1", -10, ⟨2024, 0, 1⟩, none, "x", some "A_B"⟩

/-- See `cexC3a`. -/
def cexC3b : Txn := ⟨"c2", -10, ⟨2024, 0, 31⟩, none, "x", some "A_B"⟩

/-- Counterexample to C3 as stated: the group for merchant `"A_B"` is
emitted with name `"A"`, not the full merchant component. -/
theorem claim_C3_cex :
    detectRecurringCharges [cexC3a, cexC3b] = [⟨"A", 10, Freq.monthly, 1, 2⟩] ∧
    merchComp cexC3a = "A_B" ∧ ("A" : String) ≠ "A_B" := by
  with_unfolding_all decide

/-- Witness for C3 on the underscore-free Netflix group. -/
theorem claim_C3_witness :
    sigC5 ∈ detectRecurringCharges exC5 ∧
    (∃ t, t ∈ exC5 ∧ t.amount < 0 ∧
      sigC5.name = String.mk ((merchComp t).data.takeWhile (fun c => c != '_')) ∧
      ('_' ∉ (merchComp t).data → sigC5.name = merchComp t)) :=
  ⟨by with_unfolding_all decide, claim_C3 exC5 sigC5 (by with_unfolding_all decide)⟩

/-! ### Claim C2: character-level lemmas -/

theorem char_toNat_ofNat {n : Nat} (h : n < 55296) : (Char.ofNat n).toNat = n := by
  unfold Char.ofNat
  rw [dif_pos (Or.inl h)]
  rfl

theorem char_eq_of_toNat {a b : Char} (h : a.toNat = b.toNat) : a = b :=
  Char.ext (UInt32.ext h)

theorem char_eq_iff_toNat {a b : Char} : a = b ↔ a.toNat = b.toNat :=
  ⟨fun h => h ▸ rfl, char_eq_of_toNat⟩

theorem toUpper_toNat (c : Char) :
    c.toUpper.toNat = if 97 ≤ c.toNat ∧ c.toNat ≤ 122 then c.toNat - 32 else c.toNat := by
  simp only [Char.toUpper]
  by_cases h : 97 ≤ c.toNat ∧ c.toNat ≤ 122
  · rw [if_pos h, if_pos h]
    exact char_toNat_ofNat (by omega)
  · rw [if_neg h, if_neg h]

theorem toLower_toNat (c : Char) :
    c.toLower.toNat = if 65 ≤ c.toNat ∧ c.toNat ≤ 90 then c.toNat + 32 else c.toNat := by
  simp only [Char.toLower]
  by_cases h : 65 ≤ c.toNat ∧ c.toNat ≤ 90
  · rw [if_pos h, if_pos h]
    exact char_toNat_ofNat (by omega)
  · rw [if_neg h, if_neg h]

theorem jsWs_true_iff (c : Char) : jsWs c = true ↔
    (c.toNat = 9 ∨ c.toNat = 10 ∨ c.toNat = 11 ∨ c.toNat = 12 ∨ c.toNat = 13 ∨
      c.toNat = 32 ∨ c.toNat = 160 ∨ c.toNat = 5760 ∨
      (8192 ≤ c.toNat ∧ c.toNat ≤ 8202) ∨ c.toNat = 8232 ∨ c.toNat = 8233 ∨
      c.toNat = 8239 ∨ c.toNat = 8287 ∨ c.toNat = 12288 ∨ c.toNat = 65279) := by
  unfold jsWs
  rw [decide_eq_true_eq]

theorem jsWs_toUpper {c : Char} (h : jsWs c = false) : jsWs c.toUpper = false := by
  rw [← Bool.not_eq_true] at h ⊢
  intro hw
  apply h
  rw [jsWs_true_iff] at hw ⊢
  rw [toUpper_toNat] at hw
  split_ifs at hw with hc
  · omega
  · exact hw

theorem jsWs_toLower {c : Char} (h : jsWs c = false) : jsWs c.toLower = false := by
  rw [← Bool.not_eq_true] at h ⊢
  intro hw
  apply h
  rw [jsWs_true_iff] at hw ⊢
  rw [toLower_toNat] at hw
  split_ifs at hw with hc
  · omega
  · exact hw

theorem toUpper_ne_of_toNat {c : Char} {m : Nat} (hm : m < 65 ∨ 90 < m)
    (h : c.toNat ≠ m) : c.toUpper.toNat ≠ m := by
  rw [toUpper_toNat]
  split_ifs with hc
  · omega
  · exact h

theorem toLower_ne_of_toNat {c : Char} {m : Nat} (hm : m < 97 ∨ 122 < m)
    (h : c.toNat ≠ m) : c.toLower.toNat ≠ m := by
  rw [toLower_toNat]
  split_ifs with hc
  · omega
  · exact h

theorem toUpper_idem (c : Char) : c.toUpper.toUpper = c.toUpper := by
  apply char_eq_of_toNat
  rw [toUpper_toNat c.toUpper, toUpper_toNat c]
  split_ifs <;> omega

theorem toLower_idem (c : Char) : c.toLower.toLower = c.toLower := by
  apply char_eq_of_toNat
  rw [toLower_toNat c.toLower, toLower_toNat c]
  split_ifs <;> omega

/-! ### Claim C2: `titleWord` lemmas -/

theorem mem_titleWord {d : Char} {w : List Char} (hd : d ∈ titleWord w) :
    ∃ c ∈ w, d = c.toUpper ∨ d = c.toLower := by
  cases w with
  | nil => simp [titleWord] at hd
  | cons a as =>
    simp only [titleWord, List.mem_cons] at hd
    rcases hd with rfl | hd
    · exact ⟨a, List.mem_cons_self a as, Or.inl rfl⟩
    · rw [List.mem_map] at hd
      obtain ⟨c, hc, rfl⟩ := hd
      exact ⟨c, List.mem_cons_of_mem a hc, Or.inr rfl⟩

theorem titleWord_ws_free {w : List Char} (h : ∀ c ∈ w, jsWs c = false) :
    ∀ d ∈ titleWord w, jsWs d = false := by
  intro d hd
  obtain ⟨c, hc, rfl | rfl⟩ := mem_titleWord hd
  · exact jsWs_toUpper (h c hc)
  · exact jsWs_toLower (h c hc)

theorem titleWord_no_us {w : List Char} (h : ∀ c ∈ w, c ≠ '_') :
    ∀ d ∈ titleWord w, d ≠ '_' := by
  intro d hd
  obtain ⟨c, hc, rfl | rfl⟩ := mem_titleWord hd
  · intro heq
    exact toUpper_ne_of_toNat (Or.inr (by decide))
      (fun hn => h c hc (char_eq_of_toNat hn)) (congrArg Char.toNat heq)
  · intro heq
    exact toLower_ne_of_toNat (Or.inl (by decide))
      (fun hn => h c hc (char_eq_of_toNat hn)) (congrArg Char.toNat heq)

theorem titleWord_no_sp {w : List Char} (h : ∀ c ∈ w, c ≠ ' ') :
    ∀ d ∈ titleWord w, d ≠ ' ' := by
  intro d hd
  obtain ⟨c, hc, rfl | rfl⟩ := mem_titleWord hd
  · intro heq
    exact toUpper_ne_of_toNat (Or.inl (by decide))
      (fun hn => h c hc (char_eq_of_toNat hn)) (congrArg Char.toNat heq)
  · intro heq
    exact toLower_ne_of_toNat (Or.inl (by decide))
      (fun hn => h c hc (char_eq_of_toNat hn)) (congrArg Char.toNat heq)

theorem titleWord_titleWord (w : List Char) : titleWord (titleWord w) = titleWord w := by
  cases w with
  | nil => rfl
  | cons c cs =>
    simp only [titleWord, List.map_map]
    refine congrArg₂ List.cons (toUpper_idem c) ?_
    apply List.map_congr_left
    intro a _
    exact toLower_idem a

theorem titleWord_ne_nil {w : List Char} (h : w ≠ []) : titleWord w ≠ [] := by
  cases w with
  | nil => exact absurd rfl h
  | cons a as => simp [titleWord]

theorem titleWord_getLast_ws {w : List Char}
    (hlast : ∀ c, w.getLast? = some c → jsWs c = false) :
    ∀ c, (titleWord w).getLast? = some c → jsWs c = false := by
  intro d hd
  cases w with
  | nil => simp [titleWord] at hd
  | cons a as =>
    cases as with
    | nil =>
      simp [titleWord] at hd
      subst hd
      exact jsWs_toUpper (hlast a rfl)
    | cons b bs =>
      obtain ⟨c0, hc0⟩ : ∃ c0, (b :: bs).getLast? = some c0 :=
        Option.isSome_iff_exists.mp (List.getLast?_isSome.mpr (by simp))
      have hw : (a :: b :: bs).getLast? = some c0 := by
        rw [List.getLast?_cons_cons]
        exact hc0
      have hmap : ((b :: bs).map Char.toLower).getLast? = some c0.toLower := by
        rw [List.getLast?_map, hc0]
        rfl
      rw [show titleWord (a :: b :: bs) =
        a.toUpper :: (b :: bs).map Char.toLower from rfl] at hd
      simp only [List.map_cons] at hd hmap
      rw [List.getLast?_cons_cons] at hd
      rw [hd] at hmap
      have hde : d = c0.toLower := Option.some.inj hmap
      subst hde
      exact jsWs_toLower (hlast c0 hw)

/-! ### Claim C2: split/join/trim lemmas -/

theorem joinWith_single (sep : Char) (w : List Char) : joinWith sep [w] = w := rfl

theorem joinWith_cons2 (sep : Char) (w x : List Char) (ws : List (List Char)) :
    joinWith sep (w :: x :: ws) = w ++ sep :: joinWith sep (x :: ws) := rfl

theorem splitOnC_cons_sep (sep : Char) (cs : List Char) :
    splitOnC sep (sep :: cs) = [] :: splitOnC sep cs := by
  simp [splitOnC]

theorem splitOnC_cons_ne (sep c : Char) (cs : List Char) (hc : c ≠ sep) {w : List Char}
    {ws : List (List Char)} (hS : splitOnC sep cs = w :: ws) :
    splitOnC sep (c :: cs) = (c :: w) :: ws := by
  simp [splitOnC, hc, hS]

theorem splitOnC_dest (sep : Char) (l : List Char) :
    ∃ w ws, splitOnC sep l = w :: ws := by
  rcases h : splitOnC sep l with _ | ⟨w, ws⟩
  · exact absurd h (splitOnC_ne_nil sep l)
  · exact ⟨w, ws, rfl⟩

theorem head?_memL {α : Type} {l : List α} {c : α} (h : l.head? = some c) : c ∈ l := by
  cases l with
  | nil => exact Option.noConfusion h
  | cons a as =>
    obtain rfl : a = c := Option.some.inj h
    exact List.mem_cons_self _ _

theorem getLast?_memL {α : Type} {l : List α} {c : α} (h : l.getLast? = some c) : c ∈ l := by
  obtain ⟨ys, rfl⟩ := List.getLast?_eq_some_iff.mp h
  exact List.mem_append.mpr (Or.inr (List.mem_cons_self _ _))

theorem join_split (sep : Char) (l : List Char) : joinWith sep (splitOnC sep l) = l := by
  induction l with
  | nil => rfl
  | cons c cs ih =>
    obtain ⟨w, ws, hS⟩ := splitOnC_dest sep cs
    by_cases hc : c = sep
    · subst hc
      rw [splitOnC_cons_sep, hS]
      rw [hS] at ih
      rw [show joinWith c ([] :: w :: ws) = [] ++ c :: joinWith c (w :: ws) from rfl,
        List.nil_append, ih]
    · rw [splitOnC_cons_ne sep c cs hc hS]
      rw [hS] at ih
      cases ws with
      | nil =>
        rw [joinWith_single] at ih ⊢
        rw [ih]
      | cons x ws' =>
        rw [joinWith_cons2, ← ih, joinWith_cons2]
        rfl

theorem splitOnC_sep_free (sep : Char) (l : List Char) :
    ∀ w ∈ splitOnC sep l, sep ∉ w := by
  induction l with
  | nil =>
    intro w hw
    rw [show splitOnC sep [] = [[]] from rfl] at hw
    simp at hw
    subst hw
    simp
  | cons c cs ih =>
    intro w hw
    by_cases hc : c = sep
    · subst hc
      rw [splitOnC_cons_sep] at hw
      rcases List.mem_cons.mp hw with rfl | hw
      · simp
      · exact ih w hw
    · obtain ⟨w0, ws, hS⟩ := splitOnC_dest sep cs
      rw [splitOnC_cons_ne sep c cs hc hS] at hw
      rcases List.mem_cons.mp hw with rfl | hw
      · intro hmem
        rcases List.mem_cons.mp hmem with h1 | h1
        · exact hc h1.symm
        · exact ih w0 (by rw [hS]; exact List.mem_cons_self _ _) h1
      · exact ih w (by rw [hS]; exact List.mem_cons_of_mem _ hw)

theorem splitOnC_chars (sep : Char) (l : List Char) :
    ∀ w ∈ splitOnC sep l, ∀ c ∈ w, c ∈ l := by
  induction l with
  | nil =>
    intro w hw
    rw [show splitOnC sep [] = [[]] from rfl] at hw
    simp at hw
    subst hw
    simp
  | cons c cs ih =>
    intro w hw d hd
    by_cases hc : c = sep
    · subst hc
      rw [splitOnC_cons_sep] at hw
      rcases List.mem_cons.mp hw with rfl | hw
      · simp at hd
      · exact List.mem_cons_of_mem _ (ih w hw d hd)
    · obtain ⟨w0, ws, hS⟩ := splitOnC_dest sep cs
      rw [splitOnC_cons_ne sep c cs hc hS] at hw
      rcases List.mem_cons.mp hw with rfl | hw
      · rcases List.mem_cons.mp hd with rfl | h1
        · exact List.mem_cons_self _ _
        · exact List.mem_cons_of_mem _
            (ih w0 (by rw [hS]; exact List.mem_cons_self _ _) d h1)
      · exact List.mem_cons_of_mem _
          (ih w (by rw [hS]; exact List.mem_cons_of_mem _ hw) d hd)

theorem splitOnC_of_sep_free (sep : Char) (l : List Char) (h : sep ∉ l) :
    splitOnC sep l = [l] := by
  induction l with
  | nil => rfl
  | cons c cs ih =>
    have hc : c ≠ sep := fun he => h (he ▸ List.mem_cons_self c cs)
    have hcs : sep ∉ cs := fun hm => h (List.mem_cons_of_mem c hm)
    rw [splitOnC_cons_ne sep c cs hc (ih hcs)]

theorem splitOnC_append_sep (sep : Char) (a b : List Char) (h : sep ∉ a) :
    splitOnC sep (a ++ sep :: b) = a :: splitOnC sep b := by
  induction a with
  | nil =>
    rw [List.nil_append, splitOnC_cons_sep]
  | cons d a' ih =>
    have hd : d ≠ sep := fun he => h (he ▸ List.mem_cons_self d a')
    have ha' : sep ∉ a' := fun hm => h (List.mem_cons_of_mem d hm)
    rw [List.cons_append, splitOnC_cons_ne sep d (a' ++ sep :: b) hd (ih ha')]

theorem split_join (sep : Char) (ws : List (List Char)) (hne : ws ≠ [])
    (h : ∀ w ∈ ws, sep ∉ w) : splitOnC sep (joinWith sep ws) = ws := by
  induction ws with
  | nil => exact absurd rfl hne
  | cons w ws' ih =>
    cases ws' with
    | nil =>
      rw [joinWith_single, splitOnC_of_sep_free sep w (h w (List.mem_cons_self _ _))]
    | cons x ws'' =>
      rw [joinWith_cons2, splitOnC_append_sep sep w _ (h w (List.mem_cons_self _ _))]
      rw [ih (by simp) (fun u hu => h u (List.mem_cons_of_mem _ hu))]

theorem mem_joinWith {sep c : Char} {ws : List (List Char)} (h : c ∈ joinWith sep ws) :
    c = sep ∨ ∃ w ∈ ws, c ∈ w := by
  induction ws with
  | nil => simp [joinWith] at h
  | cons w ws' ih =>
    cases ws' with
    | nil =>
      rw [joinWith_single] at h
      exact Or.inr ⟨w, List.mem_cons_self _ _, h⟩
    | cons x ws'' =>
      rw [joinWith_cons2] at h
      rcases List.mem_append.mp h with h1 | h1
      · exact Or.inr ⟨w, List.mem_cons_self _ _, h1⟩
      · rcases List.mem_cons.mp h1 with rfl | h2
        · exact Or.inl rfl
        · rcases ih h2 with h3 | ⟨u, hu, hcu⟩
          · exact Or.inl h3
          · exact Or.inr ⟨u, List.mem_cons_of_mem _ hu, hcu⟩

theorem joinWith_head {sep : Char} {w : List Char} {ws : List (List Char)} (hw : w ≠ []) :
    (joinWith sep (w :: ws)).head? = w.head? := by
  cases ws with
  | nil => rw [joinWith_single]
  | cons x ws' =>
    rw [joinWith_cons2]
    cases w with
    | nil => exact absurd rfl hw
    | cons a w' => rfl

theorem getLast?_append_cons {α : Type} (l₁ : List α) (a : α) (l₂ : List α) :
    (l₁ ++ a :: l₂).getLast? = (a :: l₂).getLast? := by
  induction l₁ with
  | nil => rfl
  | cons b l₁' ih =>
    cases hl : l₁' ++ a :: l₂ with
    | nil => exact absurd hl (by simp)
    | cons u us =>
      rw [List.cons_append, hl, List.getLast?_cons_cons, ← hl, ih]

theorem joinWith_getLast {sep : Char} {ws : List (List Char)} {w : List Char}
    (hlast : ws.getLast? = some w) (hw : w ≠ []) :
    (joinWith sep ws).getLast? = w.getLast? := by
  induction ws with
  | nil => exact Option.noConfusion hlast
  | cons x xs ih =>
    cases xs with
    | nil =>
      obtain rfl : x = w := Option.some.inj hlast
      rw [joinWith_single]
    | cons y ys =>
      rw [List.getLast?_cons_cons] at hlast
      rw [joinWith_cons2, getLast?_append_cons]
      have hJ : joinWith sep (y :: ys) ≠ [] := by
        have hih := ih hlast
        intro h0
        rw [h0] at hih
        have hw' := List.getLast?_isSome.mpr hw
        rw [← hih] at hw'
        simp at hw'
      cases hJd : joinWith sep (y :: ys) with
      | nil => exact absurd hJd hJ
      | cons u us =>
        rw [List.getLast?_cons_cons, ← hJd]
        exact ih hlast

theorem joinWith_concat_nil (sep : Char) (y : List Char) (ys : List (List Char)) :
    (joinWith sep ((y :: ys) ++ [[]])).getLast? = some sep := by
  induction ys generalizing y with
  | nil =>
    rw [show (y :: ([] : List (List Char))) ++ [[]] = [y, []] from rfl, joinWith_cons2,
      joinWith_single]
    rw [show y ++ sep :: ([] : List Char) = y ++ [sep] from rfl]
    exact List.getLast?_concat y
  | cons x xs ih =>
    rw [show ((y :: x :: xs) ++ [[]]) = y :: ((x :: xs) ++ [[]]) from rfl]
    rw [show (x :: xs) ++ [[]] = x :: (xs ++ [[]]) from rfl]
    rw [joinWith_cons2, getLast?_append_cons]
    have hxs : (joinWith sep ((x :: xs) ++ [[]])).getLast? = some sep := ih x
    rw [show (x :: xs) ++ [[]] = x :: (xs ++ [[]]) from rfl] at hxs
    have hJ : joinWith sep (x :: (xs ++ [[]])) ≠ [] := by
      intro h0
      rw [h0] at hxs
      exact Option.noConfusion hxs
    cases hJd : joinWith sep (x :: (xs ++ [[]])) with
    | nil => exact absurd hJd hJ
    | cons u us =>
      rw [List.getLast?_cons_cons, ← hJd]
      exact hxs

theorem dropWhile_head_false {p : Char → Bool} {l : List Char} {c : Char}
    (h : (l.dropWhile p).head? = some c) : p c = false := by
  have hm := List.head?_dropWhile_not p l
  rw [h] at hm
  exact hm

theorem dropWhile_getLast_eq {p : Char → Bool} {l : List Char} (h : l.dropWhile p ≠ []) :
    (l.dropWhile p).getLast? = l.getLast? := by
  induction l with
  | nil => simp at h
  | cons a l' ih =>
    rw [List.dropWhile_cons] at h ⊢
    by_cases hp : p a
    · rw [if_pos hp] at h ⊢
      have hl' : l' ≠ [] := by
        intro h0
        subst h0
        simp [List.dropWhile] at h
      cases l' with
      | nil => exact absurd rfl hl'
      | cons b bs => rw [ih h, List.getLast?_cons_cons]
    · rw [if_neg hp] at h ⊢

theorem trimL_head_ws {l : List Char} {c : Char} (h : (trimL l).head? = some c) :
    jsWs c = false := dropWhile_head_false h

theorem trimL_getLast_ws {l : List Char} {c : Char} (h : (trimL l).getLast? = some c) :
    jsWs c = false := by
  have hne : trimL l ≠ [] := by
    intro h0
    rw [h0] at h
    exact Option.noConfusion h
  unfold trimL at h hne
  rw [dropWhile_getLast_eq hne, List.getLast?_reverse] at h
  exact dropWhile_head_false h

theorem trimL_fixed {l : List Char}
    (hh : ∀ c, l.head? = some c → jsWs c = false)
    (hl : ∀ c, l.getLast? = some c → jsWs c = false) : trimL l = l := by
  unfold trimL
  have h1 : l.reverse.dropWhile jsWs = l.reverse := by
    cases hrev : l.reverse with
    | nil => rfl
    | cons b r =>
      rw [List.dropWhile_cons, if_neg ?hb]
      case hb =>
        have hb : l.getLast? = some b := by
          rw [← List.head?_reverse, hrev]
          rfl
        rw [hl b hb]
        simp
  rw [h1, List.reverse_reverse]
  cases l with
  | nil => rfl
  | cons a l' =>
    rw [List.dropWhile_cons, if_neg ?ha]
    case ha =>
      rw [hh a rfl]
      simp

/-! ### Claim C2: the idempotence argument -/

/-- `normChars` fixes any space-join of title-cased words whose words are
underscore- and space-free and whose boundary characters are
non-whitespace. -/
theorem normChars_join (ws : List (List Char))
    (hne : ws ≠ [])
    (hus : ∀ w ∈ ws, ∀ c ∈ w, c ≠ '_')
    (hsp : ∀ w ∈ ws, ∀ c ∈ w, c ≠ ' ')
    (hhead : ∀ w, ws.head? = some w → w ≠ [] ∧ ∀ c, w.head? = some c → jsWs c = false)
    (hlast : ∀ w, ws.getLast? = some w → w ≠ [] ∧ ∀ c, w.getLast? = some c → jsWs c = false) :
    normChars (joinWith ' ' (ws.map titleWord)) = joinWith ' ' (ws.map titleWord) ∧
    joinWith ' ' (ws.map titleWord) ≠ [] := by
  obtain ⟨w0, rest, rfl⟩ : ∃ w0 rest, ws = w0 :: rest := by
    cases ws with
    | nil => exact absurd rfl hne
    | cons a as => exact ⟨a, as, rfl⟩
  obtain ⟨hw0, hw0c⟩ := hhead w0 rfl
  obtain ⟨c0, cs0, rfl⟩ : ∃ c0 cs0, w0 = c0 :: cs0 := by
    cases w0 with
    | nil => exact absurd rfl hw0
    | cons a as => exact ⟨a, as, rfl⟩
  have hohead : (joinWith ' ' (((c0 :: cs0) :: rest).map titleWord)).head? =
      some c0.toUpper := by
    rw [List.map_cons, joinWith_head (titleWord_ne_nil hw0)]
    rfl
  have hone : joinWith ' ' (((c0 :: cs0) :: rest).map titleWord) ≠ [] := by
    intro h0
    rw [h0] at hohead
    exact Option.noConfusion hohead
  have hheadws : ∀ c, (joinWith ' ' (((c0 :: cs0) :: rest).map titleWord)).head? = some c →
      jsWs c = false := by
    intro c hc
    rw [hohead] at hc
    obtain rfl : c0.toUpper = c := Option.some.inj hc
    exact jsWs_toUpper (hw0c c0 rfl)
  obtain ⟨wn, hwn⟩ : ∃ wn, ((c0 :: cs0) :: rest).getLast? = some wn :=
    Option.isSome_iff_exists.mp (List.getLast?_isSome.mpr (by simp))
  obtain ⟨hwnne, hwnc⟩ := hlast wn hwn
  have homapLast : (((c0 :: cs0) :: rest).map titleWord).getLast? =
      some (titleWord wn) := by
    rw [List.getLast?_map, hwn]
    rfl
  have holast : (joinWith ' ' (((c0 :: cs0) :: rest).map titleWord)).getLast? =
      (titleWord wn).getLast? :=
    joinWith_getLast homapLast (titleWord_ne_nil hwnne)
  have hlastws : ∀ c,
      (joinWith ' ' (((c0 :: cs0) :: rest).map titleWord)).getLast? = some c →
      jsWs c = false := by
    intro c hc
    rw [holast] at hc
    exact titleWord_getLast_ws hwnc c hc
  have htrim : trimL (joinWith ' ' (((c0 :: cs0) :: rest).map titleWord)) =
      joinWith ' ' (((c0 :: cs0) :: rest).map titleWord) :=
    trimL_fixed hheadws hlastws
  have hnous : '_' ∉ joinWith ' ' (((c0 :: cs0) :: rest).map titleWord) := by
    intro hmem
    rcases mem_joinWith hmem with h1 | ⟨w', hw', hcw⟩
    · exact absurd h1 (by decide)
    · rw [List.mem_map] at hw'
      obtain ⟨u, hu, rfl⟩ := hw'
      exact titleWord_no_us (hus u hu) '_' hcw rfl
  have hspt : ∀ w' ∈ ((c0 :: cs0) :: rest).map titleWord, ' ' ∉ w' := by
    intro w' hw' hmem
    rw [List.mem_map] at hw'
    obtain ⟨u, hu, rfl⟩ := hw'
    exact titleWord_no_sp (hsp u hu) ' ' hmem rfl
  refine ⟨?_, hone⟩
  simp only [normChars]
  rw [htrim, if_neg hnous]
  rw [split_join ' ' (((c0 :: cs0) :: rest).map titleWord) (by simp) hspt]
  rw [List.map_map]
  apply congrArg
  apply List.map_congr_left
  intro u _
  exact titleWord_titleWord u

/-- `normChars` is idempotent on lists with a nonempty trim whose
underscore-tokens (when an underscore is present) are nonempty and
whitespace-free. -/
theorem normChars_idem (l : List Char)
    (ht : trimL l ≠ [])
    (hcond : '_' ∈ trimL l →
      ∀ w ∈ splitOnC '_' (trimL l), w ≠ [] ∧ ∀ c ∈ w, jsWs c = false) :
    normChars (normChars l) = normChars l ∧ normChars l ≠ [] := by
  by_cases hu : '_' ∈ trimL l
  · have hws := hcond hu
    have hval : normChars l = joinWith ' ' ((splitOnC '_' (trimL l)).map titleWord) := by
      simp only [normChars]
      rw [if_pos hu]
    have hmain := normChars_join (splitOnC '_' (trimL l)) (splitOnC_ne_nil _ _)
      (fun w hw c hc heq =>
        absurd (heq ▸ hc) (splitOnC_sep_free '_' (trimL l) w hw))
      (fun w hw c hc heq => by
        have hcf := (hws w hw).2 c hc
        rw [heq] at hcf
        exact absurd hcf (by decide))
      (fun w hw => by
        have hmem : w ∈ splitOnC '_' (trimL l) := by
          obtain ⟨w0, ws0, hS⟩ := splitOnC_dest '_' (trimL l)
          rw [hS] at hw ⊢
          obtain rfl : w0 = w := Option.some.inj hw
          exact List.mem_cons_self _ _
        exact ⟨(hws w hmem).1, fun c hc => (hws w hmem).2 c (head?_memL hc)⟩)
      (fun w hw => by
        have hmem : w ∈ splitOnC '_' (trimL l) := getLast?_memL hw
        exact ⟨(hws w hmem).1, fun c hc => (hws w hmem).2 c (getLast?_memL hc)⟩)
    rw [hval]
    exact hmain
  · have hval : normChars l = joinWith ' ' ((splitOnC ' ' (trimL l)).map titleWord) := by
      simp only [normChars]
      rw [if_neg hu]
    have hjoin : joinWith ' ' (splitOnC ' ' (trimL l)) = trimL l := join_split ' ' (trimL l)
    have hsepf := splitOnC_sep_free ' ' (trimL l)
    have hch := splitOnC_chars ' ' (trimL l)
    have hh : ∀ w, (splitOnC ' ' (trimL l)).head? = some w →
        w ≠ [] ∧ ∀ c, w.head? = some c → jsWs c = false := by
      intro w hw
      obtain ⟨w0, rest, hW⟩ := splitOnC_dest ' ' (trimL l)
      rw [hW] at hw
      have hww : w0 = w := Option.some.inj hw
      have hwne : w ≠ [] := by
        intro h0
        rw [hww, h0] at hW
        cases rest with
        | nil =>
          rw [hW, joinWith_single] at hjoin
          exact ht hjoin.symm
        | cons x rest' =>
          have hthead : (trimL l).head? = some ' ' := by
            rw [← hjoin, hW, joinWith_cons2]
            rfl
          have := trimL_head_ws hthead
          exact absurd this (by decide)
      refine ⟨hwne, fun c hc => ?_⟩
      have hthead : (trimL l).head? = some c := by
        rw [← hjoin, hW, hww, joinWith_head hwne]
        exact hc
      exact trimL_head_ws hthead
    have hl : ∀ w, (splitOnC ' ' (trimL l)).getLast? = some w →
        w ≠ [] ∧ ∀ c, w.getLast? = some c → jsWs c = false := by
      intro w hw
      have hwne : w ≠ [] := by
        intro h0
        subst h0
        obtain ⟨ys, hys⟩ := List.getLast?_eq_some_iff.mp hw
        cases ys with
        | nil =>
          rw [List.nil_append] at hys
          rw [hys, joinWith_single] at hjoin
          exact ht hjoin.symm
        | cons y ys' =>
          have hlt : (trimL l).getLast? = some ' ' := by
            rw [← hjoin, hys]
            exact joinWith_concat_nil ' ' y ys'
          have := trimL_getLast_ws hlt
          exact absurd this (by decide)
      refine ⟨hwne, fun c hc => ?_⟩
      have hlt : (trimL l).getLast? = some c := by
        rw [← hjoin, joinWith_getLast hw hwne]
        exact hc
      exact trimL_getLast_ws hlt
    have hmain := normChars_join (splitOnC ' ' (trimL l)) (splitOnC_ne_nil _ _)
      (fun w hw c hc heq => hu (by rw [← heq]; exact hch w hw c hc))
      (fun w hw c hc heq => hsepf w hw (heq ▸ hc))
      hh hl
    rw [hval]
    exact hmain

/-! ### Claim C2 -/

/-- The inputs on which the amended idempotence claim is proved: `null`,
the empty string, or an ASCII string whose trim is nonempty and — when it
contains an underscore — splits on `'_'` into tokens that are all
nonempty and whitespace-free.  The ASCII restriction marks the domain on
which the model's case maps coincide with ECMAScript
`toUpperCase`/`toLowerCase` (full Unicode case conversion, e.g.
`"ß".toUpperCase() = "SS"`, breaks the program's idempotence outside
it). -/
def NormIdemCond : Option String → Prop
  | none => True
  | some s => s = "" ∨ ((∀ c ∈ s.data, c.toNat < 128) ∧ trimL s.data ≠ [] ∧
      ('_' ∈ trimL s.data →
        ∀ w ∈ splitOnC '_' (trimL s.data), w ≠ [] ∧ ∀ c ∈ w, jsWs c = false))

/-- C2 (amended): `normalizeCategory` is idempotent on `null`, on the
empty string, and on every ASCII string whose JS-trimmed form is nonempty
and — if it contains an underscore — splits on `'_'` into nonempty,
whitespace-free tokens; and `normalizeCategory("FOOD_AND_DRINK") =
"Food And Drink"`.  (Unrestricted idempotence fails: `"a_"` within
ASCII; outside ASCII also via Unicode case mapping, e.g. `"ßa" → "SSa" →
"Ssa"`.) -/
theorem claim_C2 :
    (∀ x : Option String, NormIdemCond x →
      normalizeCategory (some (normalizeCategory x)) = normalizeCategory x) ∧
    normalizeCategory (some "FOOD_AND_DRINK") = "Food And Drink" := by
  constructor
  · intro x hcond
    match x with
    | none => with_unfolding_all decide
    | some s =>
      simp only [NormIdemCond] at hcond
      rcases hcond with hnil | ⟨-, ht, hcond⟩
      · subst hnil
        with_unfolding_all decide
      · by_cases hunc : s = "Uncategorized"
        · subst hunc
          with_unfolding_all decide
        · by_cases hempty : s = ""
          · subst hempty
            with_unfolding_all decide
          · obtain ⟨hmain, hne⟩ := normChars_idem s.data ht hcond
            have hfs : normalizeCategory (some s) = String.mk (normChars s.data) := by
              simp only [normalizeCategory]
              rw [if_neg (by push_neg; exact ⟨hempty, hunc⟩)]
            rw [hfs]
            by_cases ho : String.mk (normChars s.data) = "Uncategorized"
            · rw [ho]
              with_unfolding_all decide
            · have hone : ¬(String.mk (normChars s.data) = "") := by
                intro h0
                exact hne (congrArg String.data h0)
              simp only [normalizeCategory]
              rw [if_neg (by push_neg; exact ⟨hone, ho⟩)]
              show String.mk (normChars (normChars s.data)) = String.mk (normChars s.data)
              rw [hmain]
  · with_unfolding_all decide

/-- Counterexample to C2 as stated: `"a_"` normalizes to `"A "`, which
normalizes further to `"A"`. -/
theorem claim_C2_cex :
    normalizeCategory (some (normalizeCategory (some "a_"))) ≠
      normalizeCategory (some "a_") := by
  with_unfolding_all decide

/-- Witness for C2 at the spec's own example. -/
theorem claim_C2_witness :
    NormIdemCond (some "FOOD_AND_DRINK") ∧
    normalizeCategory (some (normalizeCategory (some "FOOD_AND_DRINK"))) =
      normalizeCategory (some "FOOD_AND_DRINK") :=
  ⟨by simp only [NormIdemCond]; with_unfolding_all decide,
   claim_C2.1 (some "FOOD_AND_DRINK")
     (by simp only [NormIdemCond]; with_unfolding_all decide)⟩

/-! ### Claim C4 -/

/-- Membership in the month's expense pool. -/
theorem mem_expTxns {t : Txn} {txns : List Txn} {ym : YM} :
    t ∈ expTxns txns ym ↔ t ∈ txns ∧ (ymOf t.date = ym ∧ t.amount < 0) := by
  simp [expTxns, List.mem_filter]

/-- A category total vanishes exactly when the category does not occur
among the month's expenses (every contribution is strictly positive). -/
theorem catTotal_eq_zero_iff (txns : List Txn) (ym : YM) (c : String) :
    catTotal txns ym c = 0 ↔
      c ∉ (expTxns txns ym).map (fun t => normalizeCategory t.category) := by
  constructor
  · intro h0 hc
    rw [List.mem_map] at hc
    obtain ⟨t, ht, hcat⟩ := hc
    have htf : t ∈ (expTxns txns ym).filter
        (fun t => decide (normalizeCategory t.category = c)) := by
      rw [List.mem_filter]
      exact ⟨ht, by simp [hcat]⟩
    have hmem : |t.amount| ∈ ((expTxns txns ym).filter
        (fun t => decide (normalizeCategory t.category = c))).map (fun t => |t.amount|) :=
      List.mem_map_of_mem _ htf
    have hpos : 0 < |t.amount| := by
      have := (mem_expTxns.mp ht).2.2
      exact abs_pos.mpr this.ne
    have hle : |t.amount| ≤ catTotal txns ym c := by
      apply List.single_le_sum _ _ hmem
      intro x hx
      rw [List.mem_map] at hx
      obtain ⟨u, _, rfl⟩ := hx
      exact abs_nonneg _
    rw [h0] at hle
    linarith
  · intro hc
    unfold catTotal
    have hnil : (expTxns txns ym).filter
        (fun t => decide (normalizeCategory t.category = c)) = [] := by
      rw [List.filter_eq_nil_iff]
      intro t ht hdec
      exact hc (List.mem_map.mpr ⟨t, ht, of_decide_eq_true hdec⟩)
    rw [hnil]
    rfl

/-- C4: `detectCategoryTrends` emits a signal for a category iff the two
month totals are not both zero and the materiality gate holds
(`|deltaPercent| > 10` or `|current - previous| > 20`, with `deltaPercent`
equal to 100 when the previous total is 0 and the current positive, and to
`(current-previous)/previous*100` when the previous total is nonzero); in
particular current=$21 / previous=$0 emits and current=$15 / previous=$14
does not. -/
theorem claim_C4 :
    (∀ (txns : List Txn) (cur prev : YM) (c : String),
      (∃ s, s ∈ detectCategoryTrends txns cur prev ∧ s.category = c) ↔
        (¬(catTotal txns cur c = 0 ∧ catTotal txns prev c = 0) ∧
          (10 < |deltaPercentOf (catTotal txns cur c) (catTotal txns prev c)| ∨
            20 < |catTotal txns cur c - catTotal txns prev c|))) ∧
    (∀ current previous : ℚ,
      (previous = 0 → 0 < current → deltaPercentOf current previous = 100) ∧
      (previous ≠ 0 →
        deltaPercentOf current previous = (current - previous) / previous * 100)) ∧
    detectCategoryTrends exC4a ⟨2024, 1⟩ ⟨2024, 0⟩ = [⟨"Food", 100, 21, 7/10, 21, 0⟩] ∧
    detectCategoryTrends exC4b ⟨2024, 1⟩ ⟨2024, 0⟩ = [] := by
  refine ⟨?_, ?_, by with_unfolding_all decide, by with_unfolding_all decide⟩
  · intro txns cur prev c
    constructor
    · rintro ⟨s, hs, rfl⟩
      unfold detectCategoryTrends at hs
      rw [List.mem_filterMap] at hs
      obtain ⟨c', _, hf⟩ := hs
      simp only [trendFor] at hf
      split_ifs at hf with h1 h2
      all_goals
        first
          | exact Option.noConfusion hf
          | (simp only [Option.some.injEq] at hf
             subst hf
             exact ⟨fun hand => h1 ⟨hand.2, hand.1⟩, h2⟩)
    · rintro ⟨hnz, hgate⟩
      have hmem : c ∈ trendCats txns cur prev := by
        unfold trendCats
        rw [List.mem_dedup, List.mem_append]
        rw [not_and_or] at hnz
        rcases hnz with h | h
        · exact Or.inl (not_not.mp ((not_iff_not.mpr (catTotal_eq_zero_iff txns cur c)).mp h))
        · exact Or.inr (not_not.mp ((not_iff_not.mpr (catTotal_eq_zero_iff txns prev c)).mp h))
      have hf : trendFor txns cur prev c =
          some ⟨c, round1 (deltaPercentOf (catTotal txns cur c) (catTotal txns prev c)),
            round2 (catTotal txns cur c - catTotal txns prev c),
            trendConfidence (catTotal txns cur c) (catTotal txns prev c),
            catTotal txns cur c, catTotal txns prev c⟩ := by
        simp only [trendFor]
        rw [if_neg (by tauto), if_pos hgate]
      exact ⟨_, List.mem_filterMap.mpr ⟨c, hmem, hf⟩, rfl⟩
  · intro current previous
    constructor
    · intro h0 hpos
      simp [deltaPercentOf, h0, hpos]
    · intro hne
      simp [deltaPercentOf, hne]

/-- Witness for C4: the deltaPercent clauses at the concrete totals of the
spec's two examples. -/
theorem claim_C4_witness :
    deltaPercentOf 21 0 = 100 ∧ deltaPercentOf 15 14 = (15 - 14) / 14 * 100 :=
  ⟨(claim_C4.2.1 21 0).1 rfl (by norm_num),
   (claim_C4.2.1 15 14).2 (by norm_num)⟩

/-! ### Claim C5 -/

/-- C5: a group of at least two occurrences is classified by its average
successive day-gap — `[25,35]` → monthly with confidence
`max(0.5, 1 - variance/100)`, `[5,9]` → weekly with
`max(0.5, 1 - variance/10)`, `[360,370]` → yearly with flat `0.7`, any
other average unclassified — a group is emitted only when classified with
confidence strictly above 0.5 (the emitted confidence being the rounded
value), and three charges at exact 30-day/30-day spacing are emitted as
monthly with confidence 1.0. -/
theorem claim_C5 :
    (∀ l : List Int,
      (25 ≤ avgOf l ∧ avgOf l ≤ 35 →
        classifyIntervals l = some (Freq.monthly, max (1/2) (1 - varOf l / 100))) ∧
      (5 ≤ avgOf l ∧ avgOf l ≤ 9 →
        classifyIntervals l = some (Freq.weekly, max (1/2) (1 - varOf l / 10))) ∧
      (360 ≤ avgOf l ∧ avgOf l ≤ 370 →
        classifyIntervals l = some (Freq.yearly, 7/10)) ∧
      (¬(25 ≤ avgOf l ∧ avgOf l ≤ 35) → ¬(5 ≤ avgOf l ∧ avgOf l ≤ 9) →
        ¬(360 ≤ avgOf l ∧ avgOf l ≤ 370) → classifyIntervals l = none)) ∧
    (∀ (txns : List Txn) (s : RecurringChargeSignal), s ∈ detectRecurringCharges txns →
      ∃ k, k ∈ chargeKeyList txns ∧ 2 ≤ (groupDates txns k).length ∧
        ∃ c : ℚ,
          classifyIntervals (gapsOf (List.insertionSort (· ≤ ·) (groupDates txns k))) =
            some (s.frequency, c) ∧
          1/2 < c ∧ s.confidence = round2 c ∧
          s.transactionCount = (groupDates txns k).length) ∧
    detectRecurringCharges exC5 = [sigC5] := by
  refine ⟨?_, ?_, by with_unfolding_all decide⟩
  · intro l
    refine ⟨?_, ?_, ?_, ?_⟩
    · intro h
      unfold classifyIntervals
      rw [if_pos h]
    · intro h
      unfold classifyIntervals
      rw [if_neg (by rintro ⟨h25, _⟩; linarith [h.2]), if_pos h]
    · intro h
      unfold classifyIntervals
      rw [if_neg (by rintro ⟨h25, _⟩; linarith [h.1]),
        if_neg (by rintro ⟨_, h9⟩; linarith [h.1]), if_pos h]
    · intro h1 h2 h3
      unfold classifyIntervals
      rw [if_neg h1, if_neg h2, if_neg h3]
  · intro txns s hs
    unfold detectRecurringCharges at hs
    rw [List.mem_filterMap] at hs
    obtain ⟨k, hk, ha⟩ := hs
    refine ⟨k, hk, ?_⟩
    simp only [analyzeKey] at ha
    by_cases hlen : (groupDates txns k).length < 2
    · rw [if_pos hlen] at ha
      exact Option.noConfusion ha
    · rw [if_neg hlen] at ha
      rcases hcl : classifyIntervals (gapsOf
          (List.insertionSort (· ≤ ·) (groupDates txns k))) with _ | ⟨f, c⟩
      · rw [hcl] at ha
        exact Option.noConfusion ha
      · rw [hcl] at ha
        dsimp only at ha
        by_cases hc : 1/2 < c
        · rw [if_pos hc] at ha
          simp only [Option.some.injEq] at ha
          subst ha
          exact ⟨by omega, c, rfl, hc, rfl, rfl⟩
        · rw [if_neg hc] at ha
          exact Option.noConfusion ha

/-- Witness for C5: the 30-day/30-day Netflix group. -/
theorem claim_C5_witness :
    sigC5 ∈ detectRecurringCharges exC5 ∧
    (∃ k, k ∈ chargeKeyList exC5 ∧ 2 ≤ (groupDates exC5 k).length ∧
      ∃ c : ℚ,
        classifyIntervals (gapsOf (List.insertionSort (· ≤ ·) (groupDates exC5 k))) =
          some (sigC5.frequency, c) ∧
        1/2 < c ∧ sigC5.confidence = round2 c ∧
        sigC5.transactionCount = (groupDates exC5 k).length) :=
  ⟨by with_unfolding_all decide, claim_C5.2.1 exC5 sigC5 (by with_unfolding_all decide)⟩

/-- Witness for C8: both branches at concrete inputs. -/
theorem claim_C8_witness :
    ((∀ t ∈ exC8a, ymOf t.date = ymOf ⟨2024, 1, 5⟩ → t.amount ≤ 0) ∧
      (calculateCashflow exC8a ⟨2024, 1, 5⟩).savingsRate = none) ∧
    (0 < monthIncome exC8b (ymOf ⟨2024, 1, 5⟩) ∧
      (calculateCashflow exC8b ⟨2024, 1, 5⟩).savingsRate =
        some (round2 (monthNet exC8b (ymOf ⟨2024, 1, 5⟩) /
          monthIncome exC8b (ymOf ⟨2024, 1, 5⟩) * 100))) :=
  ⟨⟨by with_unfolding_all decide,
    (claim_C8 exC8a ⟨2024, 1, 5⟩).1 (by with_unfolding_all decide)⟩,
   ⟨by with_unfolding_all decide,
    (claim_C8 exC8b ⟨2024, 1, 5⟩).2 (by with_unfolding_all decide)⟩⟩

/-- Witness for C9: two expenses among five transactions yield no
anomalies. -/
theorem claim_C9_witness :
    (expenseTxns exC9).length < 3 ∧ detectAnomalies exC9 = [] :=
  ⟨by with_unfolding_all decide, claim_C9 exC9 (by with_unfolding_all decide)⟩

/-- Witness for C10: the flagged $100 outlier of `exC10` carries
confidence 0.9. -/
theorem claim_C10_witness :
    sigC10 ∈ detectAnomalies exC10 ∧ sigC10.confidence = 9/10 :=
  ⟨by with_unfolding_all decide, claim_C10 exC10 sigC10 (by with_unfolding_all decide)⟩

end Panw
